import Mathlib

/-!
Shallow embedding of the GraphLearn repository's core graph code
(`graph_explorer.py` and `db_graph_explorer.py`) together with proofs about
the embedded operations: bounded breadth-first neighborhood expansion
(`get_node_neighborhood`), importance ranking (`find_important_nodes`),
ingestion (`preprocess_graph`), and the query routes (`/api/search`,
`/api/expand`).
-/

namespace GraphLearn

/-- Models Python string comparison as used by `sorted` on strings: strict
lexicographic order on the character code points. -/
def strLt : List Char → List Char → Bool
  | [], [] => false
  | [], _ :: _ => true
  | _ :: _, [] => false
  | c :: cs, d :: ds =>
    if c.toNat < d.toNat then true
    else if d.toNat < c.toNat then false
    else strLt cs ds

/-- Models `tuple(sorted([source_id, target_id]))` from `preprocess_graph`:
the unordered endpoint pair, represented smaller string first. -/
def pySortPair (u v : String) : String × String :=
  if strLt v.data u.data then (v, u) else (u, v)

/-- Single-quote character (`Char.ofNat 39`). -/
def quoteChar : Char := Char.ofNat 39

/-- Models `str(x).replace("'", "''")` on the character list: every
single-quote character is doubled.  `preprocess_graph` applies this to all
node identifiers before persisting them. -/
def escL : List Char → List Char
  | [] => []
  | c :: cs => if c = quoteChar then c :: c :: escL cs else c :: escL cs

/-- Quote-escaping on strings, as applied by `preprocess_graph`. -/
def esc (s : String) : String := ⟨escL s.data⟩

/-- In-memory graph as produced by `load_dot_file`: the node list in insertion
order and the edge stream exactly as networkx `G.edges()` yields it.  A
multigraph edge stream may repeat unordered pairs and may contain self-loops. -/
structure GraphL where
  nodes : List String
  edges : List (String × String)

/-- Models networkx `G.degree(n)` on an undirected graph: each edge of the
stream contributes 1 for each of its endpoints equal to `n`, so a self-loop at
`n` contributes 2. -/
def nxDegree (G : GraphL) (n : String) : Nat :=
  (G.edges.map (fun e => (if e.1 = n then 1 else 0) + (if e.2 = n then 1 else 0))).sum

/-- Models `set(G.neighbors(node))`: every node joined to `n` by some edge of
the stream, without duplicates. -/
def neighborsOf (G : GraphL) (n : String) : List String :=
  (G.edges.filterMap (fun e =>
    if e.1 = n then some e.2 else if e.2 = n then some e.1 else none)).dedup

/-- Models one step of Python `sorted(items, key=lambda x: x[1], reverse=True)`:
stable insertion of `x` into an already descending list.  `x` (the element
that came earlier in the input) is placed before the first element whose score
does not exceed `x`'s, so equal scores keep their input order. -/
def insertDescBySnd (x : String × Nat) : List (String × Nat) → List (String × Nat)
  | [] => [x]
  | y :: ys => if y.2 ≤ x.2 then x :: y :: ys else y :: insertDescBySnd x ys

/-- Models Python `sorted(importance.items(), key=lambda x: x[1], reverse=True)`
in `find_important_nodes`.  Python's sort is stable, and with `reverse=True`
elements of equal score keep their original order; the stable descending
ordering of a list is unique, so this insertion sort computes exactly the list
the source produces. -/
def pySortDescBySnd : List (String × Nat) → List (String × Nat)
  | [] => []
  | x :: xs => insertDescBySnd x (pySortDescBySnd xs)

/-- Models `dict(G.degree())` in `find_important_nodes`: every node paired with
its degree, in node insertion order. -/
def degreeImportance (G : GraphL) : List (String × Nat) :=
  G.nodes.map (fun n => (n, nxDegree G n))

/-- Models `find_important_nodes(G, method, top_n)` (identical in
`graph_explorer.py` and `db_graph_explorer.py`).  The networkx
betweenness-centrality and PageRank computations are external collaborators
and are taken as parameters `bw` and `pr`; a `none` result models the
exception path of the source's `try/except`, which falls back to the degree
table.  The selected score table is sorted descending (stable) and the first
`top_n` node ids are returned. -/
def find_important_nodes (bw pr : GraphL → Option (List (String × Nat)))
    (G : GraphL) (method : String) (top_n : Nat) : List String :=
  let importance :=
    if method = "degree" then degreeImportance G
    else if method = "betweenness" then (bw G).getD (degreeImportance G)
    else if method = "pagerank" then (pr G).getD (degreeImportance G)
    else degreeImportance G
  ((pySortDescBySnd importance).take top_n).map Prod.fst

/-- Models the edge-insertion loop of `preprocess_graph`:
`for i, (u, v) in enumerate(G.edges())`, identifiers are quote-escaped, the
unordered endpoint pair is looked up in `edge_set` (`seen`), duplicates are
skipped, and surviving edges are persisted as `(i, source, target)` with `i`
the enumerate index over the original stream. -/
def persistEdgesGo : Nat → List (String × String) → List (String × String) →
    List (Nat × String × String)
  | _, _, [] => []
  | i, seen, (u, v) :: rest =>
    let su := esc u
    let sv := esc v
    let key := pySortPair su sv
    if key ∈ seen then persistEdgesGo (i + 1) seen rest
    else (i, su, sv) :: persistEdgesGo (i + 1) (key :: seen) rest

/-- Edge rows persisted by `preprocess_graph` for a given edge stream. -/
def persistEdges (stream : List (String × String)) : List (Nat × String × String) :=
  persistEdgesGo 0 [] stream

/-- Persisted store produced by `preprocess_graph`: the `nodes`, `edges`,
`important_nodes` and `graph_stats` tables.  The `avg_degree` float is modeled
as an exact rational. -/
structure Store where
  nodesT : List (String × String × Nat)
  edgesT : List (Nat × String × String)
  importantT : List String
  statsT : List (String × Rat)
deriving DecidableEq

/-- Outcome of an ingestion pass.  `preprocess_graph` either completes, or —
when the loaded graph has zero nodes — raises `ZeroDivisionError` while
computing `avg_degree` (`sum(dict(G.degree()).values()) / len(G)`).  The
constructor `emptyGraphError` exists only to express the specification's
claimed `EmptyGraph` outcome; the code never produces it. -/
inductive PreOutcome
  | ok
  | zeroDivisionError
  | emptyGraphError
deriving DecidableEq

/-- Models `preprocess_graph(dot_file, db_file)` acting on an already loaded
graph.  `_prior` is the store generation previously persisted at `db_file`;
the function returns the final content of `db_file` together with the pass
outcome.  The source removes any existing database file before all other work
(`if os.path.exists(db_file): os.remove(db_file)`), so the prior generation
never survives — which is why `_prior` cannot influence the result.  Node rows
are `(id, label, degree)` with id and label both the quote-escaped node name
and the degree taken from `G.degree` (computed before edge deduplication);
edge rows come from `persistEdges`; important nodes are the degree-method top
50; the stats table holds `total_nodes`, `total_edges` (the raw stream length)
and `avg_degree`.  With zero nodes the `avg_degree` division fails, leaving
the partially built empty store on disk. -/
def preprocess_graph (G : GraphL) (_prior : Option Store) : Option Store × PreOutcome :=
  let nodesT := G.nodes.map (fun n => (esc n, esc n, nxDegree G n))
  let edgesT := persistEdges G.edges
  let importantT := (find_important_nodes (fun _ => none) (fun _ => none) G "degree" 50).map esc
  if G.nodes.length = 0 then
    (some ⟨nodesT, edgesT, importantT, []⟩, PreOutcome.zeroDivisionError)
  else
    let degSum : Nat := (G.nodes.map (nxDegree G)).sum
    let stats : List (String × Rat) :=
      [("total_nodes", (G.nodes.length : Rat)),
       ("total_edges", (G.edges.length : Rat)),
       ("avg_degree", (degSum : Rat) / (G.nodes.length : Rat))]
    (some ⟨nodesT, edgesT, importantT, stats⟩, PreOutcome.ok)

/-- Store left on disk by an ingestion pass (for the claims about persisted
state; the pass always leaves some store file behind, possibly partial). -/
def storeAfter (G : GraphL) (prior : Option Store) : Store :=
  ((preprocess_graph G prior).1).getD ⟨[], [], [], []⟩

/-- Number of persisted edge rows having `m` as source or target. -/
def incidentCount (m : String) (rows : List (Nat × String × String)) : Nat :=
  rows.countP (fun r => (r.2.1 == m) || (r.2.2 == m))

/-- Models the inner neighbor loop of `get_node_neighborhood`: candidates are
admitted one at a time; when the visited count has reached `max_nodes` the
loop breaks, otherwise the candidate joins the visited set, the distance map
and the next frontier.  State is
`(nodes_to_include, distance_map, next_frontier)`. -/
def admitCands (maxn d : Nat) :
    List String → List String × List (String × Nat) × List String →
    List String × List (String × Nat) × List String
  | [], st => st
  | c :: cs, (inc, dm, nf) =>
    if maxn ≤ inc.length then (inc, dm, nf)
    else admitCands maxn d cs (inc ++ [c], dm ++ [(c, d)], nf ++ [c])

/-- Models one pass over the frontier in `get_node_neighborhood`: for each
frontier node, its neighbors not yet included are computed
(`neighbors -= nodes_to_include`) and admitted under the node budget. -/
def processFrontier (G : GraphL) (maxn d : Nat) :
    List String → List String × List (String × Nat) × List String →
    List String × List (String × Nat) × List String
  | [], st => st
  | node :: rest, (inc, dm, nf) =>
    let cands := (neighborsOf G node).filter (fun c => !(decide (c ∈ inc)))
    processFrontier G maxn d rest (admitCands maxn d cands (inc, dm, nf))

/-- Models the `while` loop of `get_node_neighborhood`: layers are processed
while `current_distance < max_distance` (tracked by `fuel`, the number of
still-allowed layers) and the visited count is below `max_nodes`; the loop
also stops when a layer produces an empty next frontier. -/
def bfsLayers (G : GraphL) (maxn : Nat) :
    Nat → Nat → List String → List String → List (String × Nat) →
    List String × List (String × Nat)
  | 0, _, _, inc, dm => (inc, dm)
  | fuel + 1, d, frontier, inc, dm =>
    if inc.length < maxn then
      match processFrontier G maxn (d + 1) frontier (inc, dm, []) with
      | (inc2, dm2, nf) =>
        if nf.isEmpty then (inc2, dm2) else bfsLayers G maxn fuel (d + 1) nf inc2 dm2
    else (inc, dm)

/-- Models `get_node_neighborhood(G, center_node, max_distance, max_nodes)` for
a center node present in the graph (when the center is absent the source
substitutes a uniformly random existing node via `random.choice`; that
nondeterministic branch is outside this model).  Returns the visited node set
— the node set of the returned subgraph — and the distance map. -/
def get_node_neighborhood (G : GraphL) (center : String) (max_distance max_nodes : Nat) :
    List String × List (String × Nat) :=
  bfsLayers G max_nodes max_distance 0 [center] [center] [(center, 0)]

/-- Percent character, the `LIKE` any-sequence wildcard. -/
def pctChar : Char := '%'

/-- Underscore character, the `LIKE` single-character wildcard. -/
def uscChar : Char := '_'

/-- Models SQLite's default ASCII case folding: `A`–`Z` map to `a`–`z`, every
other character is unchanged. -/
def lowerA (c : Char) : Char :=
  if 'A' ≤ c ∧ c ≤ 'Z' then Char.ofNat (c.toNat + 32) else c

/-- True when a `LIKE` pattern matches the empty subject: the pattern must
consist of `%` wildcards only. -/
def matchEmpty : List Char → Bool
  | [] => true
  | p :: ps => if p = pctChar then matchEmpty ps else false

/-- Pattern loop of the `LIKE` matcher against a non-empty subject `c :: s2`.
`recTail pat` matches the pattern `pat` against the subject's tail `s2`.  A
`%` either matches the empty sequence (continue with the rest of the pattern
on the same subject) or absorbs `c` (retry the whole pattern on the tail); a
`_` absorbs `c` unconditionally; an ordinary pattern character must equal `c`
after ASCII case folding. -/
def likeHere (recTail : List Char → Bool) (c : Char) (s2 : List Char) : List Char → Bool
  | [] => false
  | p :: ps =>
    if p = pctChar then likeHere recTail c s2 ps || recTail (p :: ps)
    else if p = uscChar then recTail ps
    else (lowerA p == lowerA c) && recTail ps

/-- Subject loop of the `LIKE` matcher: structural recursion on the subject,
with `likeHere` handling one subject character. -/
def likeGo : List Char → List Char → Bool
  | [], p => matchEmpty p
  | c :: s2, p => likeHere (fun pat => likeGo s2 pat) c s2 p

/-- Models SQLite's default `LIKE` operator: `likeMatch p s` is true when the
pattern `p` matches the whole subject `s`, where `%` matches any sequence, `_`
matches any single character, and ordinary characters compare after ASCII case
folding (SQLite's default `LIKE` is case-insensitive for the ASCII range). -/
def likeMatch (p s : List Char) : Bool := likeGo s p

/-- Models the row-eligibility test of `/api/search`: the stored label matches
the SQL pattern `'%' + query + '%'`. -/
def searchEligible (q label : String) : Bool :=
  likeMatch (pctChar :: (q.data ++ [pctChar])) label.data

/-- Case-sensitive prefix test, written from the claim's words for comparison
with the source-derived `likeMatch`. -/
def prefixEq : List Char → List Char → Bool
  | [], _ => true
  | _ :: _, [] => false
  | c :: cs, d :: ds => (c == d) && prefixEq cs ds

/-- Case-sensitive substring occurrence, written from the claim's words: some
suffix of the subject starts with `q`. -/
def subOccurs (q : List Char) : List Char → Bool
  | [] => prefixEq q []
  | c :: l2 => prefixEq q (c :: l2) || subOccurs q l2

/-- A node-table row `(id, label, degree)`. -/
abbrev NodeRow := String × String × Nat

/-- Models the SQL row filter `label LIKE '%' + q + '%'` of `/api/search`. -/
def matchQ (q : String) (r : NodeRow) : Bool := searchEligible q r.2.1

/-- Rows of the nodes table matching the query. -/
def searchMatches (store : List NodeRow) (q : String) : List NodeRow :=
  store.filter (matchQ q)

/-- Models the `/api/search` route: a query that is empty or shorter than two
characters returns the empty list without touching storage; otherwise the
result is any list the SQL `SELECT DISTINCT * FROM nodes WHERE label LIKE ?
ORDER BY degree DESC LIMIT 10` may return — a 10-prefix of some permutation of
the matching rows that is sorted by degree descending.  SQLite fixes no order
among rows of equal degree, so the route's semantics is a relation, not a
function (`DISTINCT` is a no-op on the id-keyed nodes table). -/
def search_nodes (store : List NodeRow) (q : String) (out : List NodeRow) : Prop :=
  if q.length < 2 then out = []
  else ∃ full : List NodeRow,
    full.Perm (searchMatches store q) ∧
    full.Pairwise (fun a b => b.2.2 ≤ a.2.2) ∧
    out = full.take 10

/-- Models the first query of `/api/expand/<node_id>`: `SELECT DISTINCT
nodes.* FROM nodes JOIN edges ON nodes.id = edges.target OR nodes.id =
edges.source WHERE edges.source = ? OR edges.target = ?`. -/
def expand_node_nodes (st : Store) (c : String) : List (String × String × Nat) :=
  st.nodesT.filter (fun n =>
    st.edgesT.any (fun e =>
      ((n.1 == e.2.2) || (n.1 == e.2.1)) && ((e.2.1 == c) || (e.2.2 == c))))

/-- Models the second query of `/api/expand/<node_id>`: all persisted edge
rows incident to the id. -/
def expand_node_edges (st : Store) (c : String) : List (Nat × String × String) :=
  st.edgesT.filter (fun e => (e.2.1 == c) || (e.2.2 == c))

/-- One-hop neighbor relation, written from the claim's words: `n` is a 1-hop
neighbor of `c` when some persisted edge joins `c` to `n`. -/
def isNeighborB (st : Store) (c n : String) : Bool :=
  st.edgesT.any (fun e => ((e.2.1 == c) && (e.2.2 == n)) || ((e.2.2 == c) && (e.2.1 == n)))

/-- True when the store holds at least one edge incident to `c`. -/
def hasIncidentB (st : Store) (c : String) : Bool :=
  st.edgesT.any (fun e => (e.2.1 == c) || (e.2.2 == c))

end GraphLearn


namespace GraphLearn

/-! ### Shared auxiliary definitions for the theorems -/

/-- Unordered-pair key of a persisted edge row, as used by `edge_set`. -/
def rowKey (r : Nat × String × String) : String × String := pySortPair r.2.1 r.2.2

/-- Unordered-pair key of a raw stream edge after quote-escaping. -/
def edgeKey (e : String × String) : String × String := pySortPair (esc e.1) (esc e.2)

/-- Concrete prior store generation used to examine rebuild behavior. -/
def priorStore : Store := ⟨[("A", "A", 0)], [], [], []⟩

/-- Concrete two-node store with a single edge `(A, B)`, used for the
expand-node claims. -/
def expandStore : Store := ⟨[("A", "A", 1), ("B", "B", 1)], [(0, "A", "B")], [], []⟩

/-! ### C10: unknown ranking method falls back to degree -/

/-- C10: for every method string other than `"degree"`, `"betweenness"` and
`"pagerank"`, `find_important_nodes` silently falls back to degree ranking:
its output equals the output of the degree method (the source's final `else`
branch builds the same `dict(G.degree())` table as the `"degree"` branch and
raises no error or warning). -/
theorem unknown_method_falls_back
    (bw pr : GraphL → Option (List (String × Nat))) (G : GraphL) (top_n : Nat)
    (method : String)
    (h1 : method ≠ "degree") (h2 : method ≠ "betweenness") (h3 : method ≠ "pagerank") :
    find_important_nodes bw pr G method top_n =
      find_important_nodes bw pr G "degree" top_n := by
  simp [find_important_nodes, h1, h2, h3]

/-- Witness for C10 at the method string `"eigenvector"`. -/
theorem unknown_method_falls_back_witness :
    find_important_nodes (fun _ => none) (fun _ => none) ⟨["a"], []⟩ "eigenvector" 3 =
      find_important_nodes (fun _ => none) (fun _ => none) ⟨["a"], []⟩ "degree" 3 :=
  unknown_method_falls_back (fun _ => none) (fun _ => none) ⟨["a"], []⟩ 3 "eigenvector"
    (by decide) (by decide) (by decide)

/-! ### C2: ingestion of an empty graph -/

/-- C2 counterexample: rebuilding from a graph with zero valid node records
does not leave the previously persisted store generation unchanged — the
source removes the database file before any validation — and the pass fails
with `ZeroDivisionError` (while computing `avg_degree`), not with an
`EmptyGraph` error. -/
theorem empty_ingest_destroys_prior_cx :
    (preprocess_graph ⟨[], []⟩ (some priorStore)).1 ≠ some priorStore ∧
    (preprocess_graph ⟨[], []⟩ (some priorStore)).2 = PreOutcome.zeroDivisionError ∧
    (preprocess_graph ⟨[], []⟩ (some priorStore)).2 ≠ PreOutcome.emptyGraphError := by
  decide

/-- C2 amended: an ingestion pass deletes the previously persisted store
generation up front, so the resulting database content is independent of the
prior store; and a pass that finds zero valid node records fails with
`ZeroDivisionError` raised by the `avg_degree` division, not with a typed
`EmptyGraph` error. -/
theorem empty_ingest_behavior (G : GraphL) (prior : Option Store) :
    (preprocess_graph G prior).1 = (preprocess_graph G none).1 ∧
    (G.nodes = [] → (preprocess_graph G prior).2 = PreOutcome.zeroDivisionError) := by
  refine ⟨rfl, fun h => ?_⟩
  simp [preprocess_graph, h]

/-- Witness for C2's amended theorem at the empty graph and a concrete prior
store. -/
theorem empty_ingest_behavior_witness :
    (preprocess_graph ⟨[], []⟩ (some priorStore)).1 = (preprocess_graph ⟨[], []⟩ none).1 ∧
    (preprocess_graph ⟨[], []⟩ (some priorStore)).2 = PreOutcome.zeroDivisionError :=
  ⟨(empty_ingest_behavior ⟨[], []⟩ (some priorStore)).1,
   (empty_ingest_behavior ⟨[], []⟩ (some priorStore)).2 rfl⟩

/-! ### C9: the expand-node query -/

/-- C9 counterexample: on a store with nodes `A`, `B` and the single edge
`(A, B)`, expanding `A` returns the row of `A` itself, although `A` is not a
1-hop neighbor of `A` — so the returned node set is not exactly the set of
1-hop neighbors. -/
theorem expand_includes_center_cx :
    ("A", "A", 1) ∈ expand_node_nodes expandStore "A" ∧
    isNeighborB expandStore "A" "A" = false := by
  decide

/-- C9 amended: for every node id `c`, `expand_node` returns exactly the
stored node rows that are endpoints of edges incident to `c` — its 1-hop
neighbors plus the row of `c` itself whenever `c` has at least one incident
edge — and exactly the persisted edge rows having `c` as source or target,
with no node budget applied. -/
theorem expand_node_characterization (st : Store) (c : String) :
    (∀ r, r ∈ expand_node_nodes st c ↔
      r ∈ st.nodesT ∧
        (isNeighborB st c r.1 = true ∨ (r.1 = c ∧ hasIncidentB st c = true))) ∧
    (∀ e, e ∈ expand_node_edges st c ↔ e ∈ st.edgesT ∧ (e.2.1 = c ∨ e.2.2 = c)) := by
  constructor
  · intro r
    simp only [expand_node_nodes, List.mem_filter, List.any_eq_true, Bool.and_eq_true,
      Bool.or_eq_true, beq_iff_eq, isNeighborB, hasIncidentB]
    refine and_congr_right fun _ => ⟨?_, ?_⟩
    · rintro ⟨e, he, h1 | h1, h2 | h2⟩
      · exact Or.inl ⟨e, he, Or.inl ⟨h2, h1.symm⟩⟩
      · exact Or.inr ⟨h1.trans h2, e, he, Or.inr h2⟩
      · exact Or.inr ⟨h1.trans h2, e, he, Or.inl h2⟩
      · exact Or.inl ⟨e, he, Or.inr ⟨h2, h1.symm⟩⟩
    · rintro (⟨e, he, ⟨h1, h2⟩ | ⟨h1, h2⟩⟩ | ⟨hc, e, he, h | h⟩)
      · exact ⟨e, he, Or.inl h2.symm, Or.inl h1⟩
      · exact ⟨e, he, Or.inr h2.symm, Or.inr h1⟩
      · exact ⟨e, he, Or.inr (hc.trans h.symm), Or.inl h⟩
      · exact ⟨e, he, Or.inl (hc.trans h.symm), Or.inr h⟩
  · intro e
    simp [expand_node_edges, List.mem_filter]

/-- Witness for C9's amended characterization: on the concrete store, the
neighbor row of `B` is part of the expansion of `A`. -/
theorem expand_node_characterization_witness :
    ("B", "B", 1) ∈ expand_node_nodes expandStore "A" :=
  ((expand_node_characterization expandStore "A").1 ("B", "B", 1)).mpr
    ⟨by decide, Or.inl (by decide)⟩

end GraphLearn
namespace GraphLearn

/-! ### C5 and C6: edge deduplication and (absence of) endpoint filtering -/

/-- Unfolding lemma: the head edge is skipped when its key was already seen. -/
theorem persistEdgesGo_cons_mem (i : Nat) (seen : List (String × String))
    (u v : String) (rest : List (String × String))
    (h : pySortPair (esc u) (esc v) ∈ seen) :
    persistEdgesGo i seen ((u, v) :: rest) = persistEdgesGo (i + 1) seen rest := by
  simp [persistEdgesGo, h]

/-- Unfolding lemma: the head edge is persisted when its key is new. -/
theorem persistEdgesGo_cons_new (i : Nat) (seen : List (String × String))
    (u v : String) (rest : List (String × String))
    (h : pySortPair (esc u) (esc v) ∉ seen) :
    persistEdgesGo i seen ((u, v) :: rest) =
      (i, esc u, esc v) :: persistEdgesGo (i + 1) (pySortPair (esc u) (esc v) :: seen) rest := by
  simp [persistEdgesGo, h]

/-- Every row emitted by the edge loop has a key outside the seen set, and the
emitted rows have pairwise distinct unordered-pair keys. -/
theorem persistEdgesGo_keys :
    ∀ (rest : List (String × String)) (i : Nat) (seen : List (String × String)),
      (∀ r ∈ persistEdgesGo i seen rest, rowKey r ∉ seen) ∧
      (persistEdgesGo i seen rest).Pairwise (fun r r2 => rowKey r ≠ rowKey r2)
  | [], i, seen => by simp [persistEdgesGo]
  | (u, v) :: rest, i, seen => by
    by_cases h : pySortPair (esc u) (esc v) ∈ seen
    · rw [persistEdgesGo_cons_mem i seen u v rest h]
      exact persistEdgesGo_keys rest (i + 1) seen
    · rw [persistEdgesGo_cons_new i seen u v rest h]
      have ih := persistEdgesGo_keys rest (i + 1) (pySortPair (esc u) (esc v) :: seen)
      constructor
      · rintro r hr
        rcases List.mem_cons.mp hr with rfl | hr2
        · exact h
        · exact fun hs => ih.1 r hr2 (List.mem_cons_of_mem _ hs)
      · rw [List.pairwise_cons]
        refine ⟨fun r hr => ?_, ih.2⟩
        have := ih.1 r hr
        intro heq
        exact this (heq ▸ List.mem_cons_self _ _)

/-- Every row emitted by the edge loop records the quote-escaped endpoints of
the stream element at its enumerate index, its key is new with respect to
`seen`, and no earlier stream element carries the same unordered-pair key. -/
theorem persistEdgesGo_first :
    ∀ (rest : List (String × String)) (i : Nat) (seen : List (String × String)),
      ∀ r ∈ persistEdgesGo i seen rest,
        ∃ j, ∃ hj : j < rest.length,
          r.1 = i + j ∧
          r.2.1 = esc (rest.get ⟨j, hj⟩).1 ∧ r.2.2 = esc (rest.get ⟨j, hj⟩).2 ∧
          rowKey r ∉ seen ∧
          ∀ j2 < j, ∀ hj2 : j2 < rest.length, edgeKey (rest.get ⟨j2, hj2⟩) ≠ rowKey r
  | [], _, _ => by simp [persistEdgesGo]
  | (u, v) :: rest, i, seen => by
    by_cases h : pySortPair (esc u) (esc v) ∈ seen
    · rw [persistEdgesGo_cons_mem i seen u v rest h]
      intro r hr
      obtain ⟨j, hj, h1, h2, h3, h4, h5⟩ := persistEdgesGo_first rest (i + 1) seen r hr
      refine ⟨j + 1, by simpa using Nat.succ_lt_succ hj, by omega, by simpa using h2,
        by simpa using h3, h4, ?_⟩
      intro j2 hj2 hj2len
      match j2, hj2len with
      | 0, _ =>
        show edgeKey (u, v) ≠ rowKey r
        intro heq
        have h6 : edgeKey (u, v) ∈ seen := h
        exact h4 (heq ▸ h6)
      | j3 + 1, hlen =>
        have := h5 j3 (by omega) (by simpa using hlen)
        simpa using this
    · rw [persistEdgesGo_cons_new i seen u v rest h]
      intro r hr
      rcases List.mem_cons.mp hr with rfl | hr2
      · refine ⟨0, by simp, by simp, rfl, rfl, ?_, by omega⟩
        simpa [rowKey] using h
      · obtain ⟨j, hj, h1, h2, h3, h4, h5⟩ :=
          persistEdgesGo_first rest (i + 1) (pySortPair (esc u) (esc v) :: seen) r hr2
        have hknot : rowKey r ≠ pySortPair (esc u) (esc v) := by
          intro heq
          exact h4 (heq ▸ List.mem_cons_self _ _)
        refine ⟨j + 1, by simpa using Nat.succ_lt_succ hj, by omega, by simpa using h2,
          by simpa using h3, fun hs => h4 (List.mem_cons_of_mem _ hs), ?_⟩
        intro j2 hj2 hj2len
        match j2, hj2len with
        | 0, _ =>
          show edgeKey (u, v) ≠ rowKey r
          rw [show edgeKey (u, v) = pySortPair (esc u) (esc v) from rfl]
          exact fun heq => hknot heq.symm
        | j3 + 1, hlen =>
          have := h5 j3 (by omega) (by simpa using hlen)
          simpa using this

/-- C5: ingestion deduplicates edges by the unordered endpoint pair — the
persisted rows have pairwise distinct unordered-pair keys, and each persisted
row is the first occurrence of its pair in the input stream (carrying that
occurrence's endpoints and enumerate index); in particular ingesting both
`(A, B)` and `(B, A)` persists exactly the single edge row `(0, A, B)`. -/
theorem edge_dedup_first_occurrence (stream : List (String × String)) :
    (persistEdges stream).Pairwise (fun r r2 => rowKey r ≠ rowKey r2) ∧
    (∀ r ∈ persistEdges stream,
      ∃ j, ∃ hj : j < stream.length,
        r.1 = j ∧
        r.2.1 = esc (stream.get ⟨j, hj⟩).1 ∧ r.2.2 = esc (stream.get ⟨j, hj⟩).2 ∧
        ∀ j2 < j, ∀ hj2 : j2 < stream.length, edgeKey (stream.get ⟨j2, hj2⟩) ≠ rowKey r) ∧
    persistEdges [("A", "B"), ("B", "A")] = [(0, "A", "B")] := by
  refine ⟨(persistEdgesGo_keys stream 0 []).2, ?_, by decide⟩
  intro r hr
  obtain ⟨j, hj, h1, h2, h3, _, h5⟩ := persistEdgesGo_first stream 0 [] r hr
  exact ⟨j, hj, by omega, h2, h3, h5⟩

/-- Witness for C5: the persisted row `(0, A, B)` of the stream
`[(A, B), (B, A)]` is the first occurrence of its unordered pair. -/
theorem edge_dedup_first_occurrence_witness :
    ∃ j, ∃ hj : j < ([("A", "B"), ("B", "A")] : List (String × String)).length,
      ((0, "A", "B") : Nat × String × String).1 = j ∧
      ((0, "A", "B") : Nat × String × String).2.1 =
        esc (([("A", "B"), ("B", "A")] : List (String × String)).get ⟨j, hj⟩).1 ∧
      ((0, "A", "B") : Nat × String × String).2.2 =
        esc (([("A", "B"), ("B", "A")] : List (String × String)).get ⟨j, hj⟩).2 ∧
      ∀ j2 < j, ∀ hj2 : j2 < ([("A", "B"), ("B", "A")] : List (String × String)).length,
        edgeKey (([("A", "B"), ("B", "A")] : List (String × String)).get ⟨j2, hj2⟩) ≠
          rowKey ((0, "A", "B") : Nat × String × String) :=
  (edge_dedup_first_occurrence [("A", "B"), ("B", "A")]).2.1 (0, "A", "B") (by decide)

/-- C6 counterexample: ingesting the single edge `(A, Z)` with `Z` absent from
the node list `[A]` does not exclude the edge: the row `(0, A, Z)` is
persisted (the edge loop consults no node set and returns no exclusion
counts). -/
theorem missing_endpoint_persisted_cx :
    persistEdges [("A", "Z")] = [(0, "A", "Z")] ∧
    persistEdges [("A", "Z")] ≠ [] ∧
    ("Z" : String) ∉ (["A"] : List String) := by
  decide

/-- Every stream element's key is either already seen or represented among the
emitted rows. -/
theorem persistEdgesGo_covers :
    ∀ (rest : List (String × String)) (i : Nat) (seen : List (String × String)),
      ∀ e ∈ rest, edgeKey e ∈ seen ∨
        ∃ r ∈ persistEdgesGo i seen rest, rowKey r = edgeKey e
  | [], _, _ => by simp
  | (u, v) :: rest, i, seen => by
    intro e he
    by_cases h : pySortPair (esc u) (esc v) ∈ seen
    · rw [persistEdgesGo_cons_mem i seen u v rest h]
      rcases List.mem_cons.mp he with rfl | he2
      · exact Or.inl h
      · exact persistEdgesGo_covers rest (i + 1) seen e he2
    · rw [persistEdgesGo_cons_new i seen u v rest h]
      rcases List.mem_cons.mp he with rfl | he2
      · exact Or.inr ⟨(i, esc u, esc v), List.mem_cons_self _ _, rfl⟩
      · rcases persistEdgesGo_covers rest (i + 1) (pySortPair (esc u) (esc v) :: seen) e he2 with
          hmem | ⟨r, hr, hkey⟩
        · rcases List.mem_cons.mp hmem with heq | hseen
          · exact Or.inr ⟨(i, esc u, esc v), List.mem_cons_self _ _, heq.symm⟩
          · exact Or.inl hseen
        · exact Or.inr ⟨r, List.mem_cons_of_mem _ hr, hkey⟩

/-- C6 amended: the edge-insertion loop of `preprocess_graph` applies no
endpoint-existence filter and reports no exclusion counts: every unordered
endpoint pair occurring in the stream is represented among the persisted edge
rows, regardless of any node set — in particular the edge `(A, Z)` is
persisted even when `Z` is not among the nodes. -/
theorem no_endpoint_filtering_amended (stream : List (String × String)) :
    ∀ e ∈ stream, ∃ r ∈ persistEdges stream, rowKey r = edgeKey e := by
  intro e he
  rcases persistEdgesGo_covers stream 0 [] e he with h | h
  · exact absurd h (List.not_mem_nil _)
  · exact h

/-- Witness for C6's amended theorem at the stream `[(A, Z)]`. -/
theorem no_endpoint_filtering_amended_witness :
    ∃ r ∈ persistEdges [("A", "Z")], rowKey r = edgeKey ("A", "Z") :=
  no_endpoint_filtering_amended [("A", "Z")] ("A", "Z") (by decide)

end GraphLearn
namespace GraphLearn

/-! ### C1: the bounded neighborhood expansion -/

/-- The candidate-admission loop keeps the visited count within the budget
(each admission is guarded by the budget check) and stamps every new distance
map entry with the current layer distance `d`. -/
theorem admitCands_spec (maxn d : Nat) :
    ∀ (cs : List String) (inc : List String) (dm : List (String × Nat)) (nf : List String),
      inc.length ≤ maxn →
      (admitCands maxn d cs (inc, dm, nf)).1.length ≤ maxn ∧
      ∀ p ∈ (admitCands maxn d cs (inc, dm, nf)).2.1, p ∈ dm ∨ p.2 = d
  | [], inc, dm, nf, h => by
    refine ⟨by simpa [admitCands] using h, fun p hp => Or.inl ?_⟩
    simpa [admitCands] using hp
  | c :: cs, inc, dm, nf, h => by
    rw [admitCands]
    by_cases hfull : maxn ≤ inc.length
    · rw [if_pos hfull]
      exact ⟨h, fun p hp => Or.inl hp⟩
    · rw [if_neg hfull]
      have hlen : (inc ++ [c]).length ≤ maxn := by
        simp only [List.length_append, List.length_singleton]
        omega
      obtain ⟨h1, h2⟩ := admitCands_spec maxn d cs (inc ++ [c]) (dm ++ [(c, d)]) (nf ++ [c]) hlen
      refine ⟨h1, fun p hp => ?_⟩
      rcases h2 p hp with hin | hd
      · rcases List.mem_append.mp hin with hin2 | hin2
        · exact Or.inl hin2
        · right
          have : p = (c, d) := by simpa using hin2
          rw [this]
      · exact Or.inr hd

/-- One frontier pass keeps the visited count within the budget and stamps
every new distance map entry with the layer distance `d`. -/
theorem processFrontier_spec (G : GraphL) (maxn d : Nat) :
    ∀ (front : List String) (inc : List String) (dm : List (String × Nat)) (nf : List String),
      inc.length ≤ maxn →
      (processFrontier G maxn d front (inc, dm, nf)).1.length ≤ maxn ∧
      ∀ p ∈ (processFrontier G maxn d front (inc, dm, nf)).2.1, p ∈ dm ∨ p.2 = d
  | [], inc, dm, nf, h => by
    exact ⟨by simpa [processFrontier] using h, fun p hp => Or.inl (by simpa [processFrontier] using hp)⟩
  | node :: rest, inc, dm, nf, h => by
    rw [processFrontier]
    have ha := admitCands_spec maxn d
      ((neighborsOf G node).filter fun c => !(decide (c ∈ inc))) inc dm nf h
    rcases hA : admitCands maxn d
        ((neighborsOf G node).filter fun c => !(decide (c ∈ inc))) (inc, dm, nf) with
      ⟨inc2, dm2, nf2⟩
    rw [hA] at ha
    obtain ⟨hlen2, hdm2⟩ := ha
    obtain ⟨hlen3, hdm3⟩ := processFrontier_spec G maxn d rest inc2 dm2 nf2 hlen2
    exact ⟨hlen3, fun p hp => (hdm3 p hp).elim (fun h2 => hdm2 p h2) Or.inr⟩

/-- The layer loop keeps the visited count within the budget and every
distance map value at most `D` whenever at most `D - d` further layers are
allowed. -/
theorem bfsLayers_spec (G : GraphL) (maxn : Nat) :
    ∀ (fuel d : Nat) (frontier inc : List String) (dm : List (String × Nat)) (D : Nat),
      inc.length ≤ maxn → d + fuel ≤ D → (∀ p ∈ dm, p.2 ≤ D) →
      (bfsLayers G maxn fuel d frontier inc dm).1.length ≤ maxn ∧
      ∀ p ∈ (bfsLayers G maxn fuel d frontier inc dm).2, p.2 ≤ D
  | 0, d, frontier, inc, dm, D, h1, _, h3 => by
    exact ⟨by simpa [bfsLayers] using h1, fun p hp => h3 p (by simpa [bfsLayers] using hp)⟩
  | fuel + 1, d, frontier, inc, dm, D, h1, h2, h3 => by
    rw [bfsLayers]
    by_cases hg : inc.length < maxn
    · rw [if_pos hg]
      rcases hP : processFrontier G maxn (d + 1) frontier (inc, dm, []) with ⟨inc2, dm2, nf⟩
      obtain ⟨hl2, hd2⟩ := processFrontier_spec G maxn (d + 1) frontier inc dm [] (le_of_lt hg)
      rw [hP] at hl2 hd2
      have hdm2 : ∀ p ∈ dm2, p.2 ≤ D := fun p hp =>
        (hd2 p hp).elim (h3 p) (fun he => by omega)
      dsimp only
      by_cases hnf : nf.isEmpty
      · rw [if_pos hnf]
        exact ⟨hl2, hdm2⟩
      · rw [if_neg hnf]
        exact bfsLayers_spec G maxn fuel (d + 1) nf inc2 dm2 D hl2 (by omega) hdm2
    · rw [if_neg hg]
      exact ⟨h1, h3⟩

/-- C1: for every graph, every center node of the graph, every maximum
distance `d` and every node budget `m ≥ 1`, the neighborhood expansion
`get_node_neighborhood G center d m` returns a subgraph whose node set has at
most `m` nodes, and every entry of the returned distance map has distance
value at most `d`. -/
theorem neighborhood_budget_and_distance (G : GraphL) (center : String)
    (d m : Nat) (hm : 1 ≤ m) (_hc : center ∈ G.nodes) :
    (get_node_neighborhood G center d m).1.length ≤ m ∧
    ∀ p ∈ (get_node_neighborhood G center d m).2, p.2 ≤ d := by
  have h := bfsLayers_spec G m d 0 [center] [center] [(center, 0)] d
    (by simpa using hm) (by omega) (by simp)
  simpa [get_node_neighborhood] using h

/-- Witness for C1 on the path graph A—B—C—D expanded from B with distance 1
and budget 10 (the specification's Scenario A). -/
theorem neighborhood_budget_and_distance_witness :
    (get_node_neighborhood ⟨["A", "B", "C", "D"], [("A", "B"), ("B", "C"), ("C", "D")]⟩
        "B" 1 10).1.length ≤ 10 ∧
    ∀ p ∈ (get_node_neighborhood ⟨["A", "B", "C", "D"], [("A", "B"), ("B", "C"), ("C", "D")]⟩
        "B" 1 10).2, p.2 ≤ 1 :=
  neighborhood_budget_and_distance
    ⟨["A", "B", "C", "D"], [("A", "B"), ("B", "C"), ("C", "D")]⟩ "B" 1 10
    (by decide) (by decide)

end GraphLearn
namespace GraphLearn

/-! ### C3: degree consistency -/

/-- Quote-doubling on character lists is injective: a run of `k` quotes maps
to a run of `2k` quotes, which is uniquely decodable. -/
theorem escL_inj : ∀ s t : List Char, escL s = escL t → s = t
  | [], [], _ => rfl
  | [], d :: ds, h => by
    rw [escL, escL] at h
    by_cases hd : d = quoteChar <;> simp [hd] at h
  | c :: cs, [], h => by
    rw [escL, escL] at h
    by_cases hc : c = quoteChar <;> simp [hc] at h
  | c :: cs, d :: ds, h => by
    rw [escL, escL] at h
    by_cases hc : c = quoteChar <;> by_cases hd : d = quoteChar
    · rw [if_pos hc, if_pos hd] at h
      obtain ⟨_, h2⟩ := List.cons.inj h
      obtain ⟨_, h3⟩ := List.cons.inj h2
      rw [hc, hd, escL_inj cs ds h3]
    · rw [if_pos hc, if_neg hd] at h
      obtain ⟨h1, _⟩ := List.cons.inj h
      exact absurd (h1.symm.trans hc) hd
    · rw [if_neg hc, if_pos hd] at h
      obtain ⟨h1, _⟩ := List.cons.inj h
      exact absurd (h1.trans hd) hc
    · rw [if_neg hc, if_neg hd] at h
      obtain ⟨h1, h2⟩ := List.cons.inj h
      rw [h1, escL_inj cs ds h2]

/-- Quote-escaping of node identifiers is injective. -/
theorem esc_inj {a b : String} (h : esc a = esc b) : a = b := by
  have h2 : escL a.data = escL b.data := congrArg String.data h
  have h3 : a.data = b.data := escL_inj a.data b.data h2
  cases a
  cases b
  exact congrArg String.mk h3

/-- Two unordered-pair keys agree only when the underlying pairs agree up to
orientation. -/
theorem pySortPair_eq_components {a b c d : String}
    (h : pySortPair a b = pySortPair c d) :
    (a = c ∧ b = d) ∨ (a = d ∧ b = c) := by
  rw [pySortPair, pySortPair] at h
  by_cases h1 : strLt b.data a.data = true <;> by_cases h2 : strLt d.data c.data = true
  · rw [if_pos h1, if_pos h2] at h
    obtain ⟨hx, hy⟩ := Prod.mk.inj h
    exact Or.inl ⟨hy, hx⟩
  · rw [if_pos h1, if_neg h2] at h
    obtain ⟨hx, hy⟩ := Prod.mk.inj h
    exact Or.inr ⟨hy, hx⟩
  · rw [if_neg h1, if_pos h2] at h
    obtain ⟨hx, hy⟩ := Prod.mk.inj h
    exact Or.inr ⟨hx, hy⟩
  · rw [if_neg h1, if_neg h2] at h
    obtain ⟨hx, hy⟩ := Prod.mk.inj h
    exact Or.inl ⟨hx, hy⟩

/-- When every stream key is new and all stream keys are pairwise distinct,
the deduplication pass removes nothing: the loop output is the enumerated,
quote-escaped stream. -/
theorem persistEdgesGo_all_new :
    ∀ (rest : List (String × String)) (i : Nat) (seen : List (String × String)),
      (∀ e ∈ rest, edgeKey e ∉ seen) →
      rest.Pairwise (fun e f => edgeKey e ≠ edgeKey f) →
      persistEdgesGo i seen rest =
        (List.enumFrom i rest).map (fun p => (p.1, esc p.2.1, esc p.2.2))
  | [], _, _, _, _ => by simp [persistEdgesGo]
  | (u, v) :: rest, i, seen, hnew, hpw => by
    have hkey : pySortPair (esc u) (esc v) ∉ seen := hnew (u, v) (List.mem_cons_self _ _)
    rw [persistEdgesGo_cons_new i seen u v rest hkey, List.enumFrom_cons, List.map_cons]
    congr 1
    apply persistEdgesGo_all_new rest (i + 1) (pySortPair (esc u) (esc v) :: seen)
    · intro e he
      rw [List.mem_cons]
      rintro (hk | hk)
      · exact (List.pairwise_cons.mp hpw).1 e he hk.symm
      · exact hnew e (List.mem_cons_of_mem _ he) hk
    · exact (List.pairwise_cons.mp hpw).2

/-- Counting incident rows of the enumerated escaped stream counts incident
stream edges. -/
theorem countP_enumFrom_map (m : String) :
    ∀ (l : List (String × String)) (i : Nat),
      incidentCount m ((List.enumFrom i l).map (fun p => (p.1, esc p.2.1, esc p.2.2))) =
        l.countP (fun e => (esc e.1 == m) || (esc e.2 == m))
  | [], _ => rfl
  | e :: l, i => by
    rw [List.enumFrom_cons, List.map_cons, incidentCount, List.countP_cons,
      List.countP_cons, ← incidentCount]
    rw [countP_enumFrom_map m l (i + 1)]

/-- Incidence to the escaped node name coincides with incidence to the raw
name, by injectivity of the escaping. -/
theorem countP_esc_eq (n : String) (l : List (String × String)) :
    l.countP (fun e => (esc e.1 == esc n) || (esc e.2 == esc n)) =
      l.countP (fun e => (e.1 == n) || (e.2 == n)) := by
  apply List.countP_congr
  intro e _
  have h1 : (esc e.1 == esc n) = (e.1 == n) := by
    by_cases h : e.1 = n
    · simp [h]
    · have hne : esc e.1 ≠ esc n := fun hc => h (esc_inj hc)
      simp [h, hne]
  have h2 : (esc e.2 == esc n) = (e.2 == n) := by
    by_cases h : e.2 = n
    · simp [h]
    · have hne : esc e.2 ≠ esc n := fun hc => h (esc_inj hc)
      simp [h, hne]
  rw [h1, h2]

/-- For a stream without self-loops, the networkx degree sum coincides with
the count of incident edges. -/
theorem sum_incident_eq_countP (n : String) :
    ∀ l : List (String × String), (∀ e ∈ l, e.1 ≠ e.2) →
      (l.map (fun e => (if e.1 = n then 1 else 0) + (if e.2 = n then 1 else 0))).sum =
        l.countP (fun e => (e.1 == n) || (e.2 == n))
  | [], _ => rfl
  | e :: l, h => by
    rw [List.map_cons, List.sum_cons, List.countP_cons]
    have ih := sum_incident_eq_countP n l (fun f hf => h f (List.mem_cons_of_mem _ hf))
    have hne := h e (List.mem_cons_self _ _)
    by_cases h1 : e.1 = n <;> by_cases h2 : e.2 = n
    · exact absurd (h1.trans h2.symm) hne
    · simp [h1, h2, ih]
      omega
    · simp [h1, h2, ih]
      omega
    · simp [h1, h2, ih]

/-- The nodes table built by ingestion. -/
theorem storeAfter_nodesT (G : GraphL) (prior : Option Store) :
    (storeAfter G prior).nodesT = G.nodes.map (fun n => (esc n, esc n, nxDegree G n)) := by
  rw [storeAfter, preprocess_graph]
  by_cases h : G.nodes.length = 0 <;> simp [h]

/-- The edges table built by ingestion. -/
theorem storeAfter_edgesT (G : GraphL) (prior : Option Store) :
    (storeAfter G prior).edgesT = persistEdges G.edges := by
  rw [storeAfter, preprocess_graph]
  by_cases h : G.nodes.length = 0 <;> simp [h]

/-- C3 counterexample: ingesting the single self-loop graph `A —— A` stores
`A` with degree 2 (networkx counts a self-loop twice), but exactly one
persisted edge row is incident to `A`. -/
theorem degree_selfloop_cx :
    (storeAfter ⟨["A"], [("A", "A")]⟩ none).nodesT = [("A", "A", 2)] ∧
    incidentCount "A" (storeAfter ⟨["A"], [("A", "A")]⟩ none).edgesT = 1 ∧
    (2 : Nat) ≠ 1 := by
  decide

/-- C3 amended: for every graph whose edge stream contains no self-loop and no
two edges with the same unordered endpoint pair (so the deduplication pass
removes nothing), every persisted node row's stored degree equals the number
of persisted edge rows incident to it.  The source caches `G.degree`, which is
computed before deduplication and counts self-loops twice, so the restriction
is forced by the counterexample. -/
theorem degree_consistency_amended (G : GraphL)
    (h1 : ∀ e ∈ G.edges, e.1 ≠ e.2)
    (h2 : G.edges.Pairwise
      (fun e f => ¬((e.1 = f.1 ∧ e.2 = f.2) ∨ (e.1 = f.2 ∧ e.2 = f.1)))) :
    ∀ r ∈ (storeAfter G none).nodesT,
      r.2.2 = incidentCount r.1 (storeAfter G none).edgesT := by
  intro r hr
  rw [storeAfter_nodesT] at hr
  obtain ⟨n, _, rfl⟩ := List.mem_map.mp hr
  show nxDegree G n = incidentCount (esc n) (storeAfter G none).edgesT
  have hkeys : G.edges.Pairwise (fun e f => edgeKey e ≠ edgeKey f) := by
    refine h2.imp ?_
    intro e f hne heq
    apply hne
    rcases pySortPair_eq_components heq with ⟨ha, hb⟩ | ⟨ha, hb⟩
    · exact Or.inl ⟨esc_inj ha, esc_inj hb⟩
    · exact Or.inr ⟨esc_inj ha, esc_inj hb⟩
  rw [storeAfter_edgesT, persistEdges,
    persistEdgesGo_all_new G.edges 0 [] (fun e _ => List.not_mem_nil _) hkeys,
    countP_enumFrom_map, countP_esc_eq, nxDegree]
  exact sum_incident_eq_countP n G.edges h1

/-- Witness for C3's amended theorem on the two-node graph A —— B. -/
theorem degree_consistency_amended_witness :
    (("A", "A", 1) : String × String × Nat).2.2 =
      incidentCount (("A", "A", 1) : String × String × Nat).1
        (storeAfter ⟨["A", "B"], [("A", "B")]⟩ none).edgesT :=
  degree_consistency_amended ⟨["A", "B"], [("A", "B")]⟩ (by decide) (by decide)
    ("A", "A", 1) (by decide)

end GraphLearn
namespace GraphLearn

/-! ### C7: degree ranking order -/

/-- Stable descending insertion permutes: inserting `x` yields `x :: l` up to
order. -/
theorem insertDescBySnd_perm (x : String × Nat) :
    ∀ l : List (String × Nat), (insertDescBySnd x l).Perm (x :: l)
  | [] => List.Perm.refl _
  | y :: ys => by
    rw [insertDescBySnd]
    by_cases h : y.2 ≤ x.2
    · rw [if_pos h]
    · rw [if_neg h]
      exact ((insertDescBySnd_perm x ys).cons y).trans (List.Perm.swap x y ys)

/-- The stable descending sort permutes its input. -/
theorem pySortDescBySnd_perm : ∀ l : List (String × Nat), (pySortDescBySnd l).Perm l
  | [] => List.Perm.refl _
  | x :: xs =>
    (insertDescBySnd_perm x (pySortDescBySnd xs)).trans
      ((pySortDescBySnd_perm xs).cons x)

/-- Inserting an element whose original position precedes every element of an
already ordered list preserves the strict order "higher score first, equal
scores in original order". -/
theorem insertDescBySnd_pairwise (pos : String × Nat → Nat) (x : String × Nat) :
    ∀ l : List (String × Nat),
      l.Pairwise (fun a b => b.2 < a.2 ∨ (a.2 = b.2 ∧ pos a < pos b)) →
      (∀ y ∈ l, pos x < pos y) →
      (insertDescBySnd x l).Pairwise (fun a b => b.2 < a.2 ∨ (a.2 = b.2 ∧ pos a < pos b))
  | [], _, _ => List.pairwise_singleton _ _
  | y :: ys, hp, hpos => by
    rw [insertDescBySnd]
    by_cases h : y.2 ≤ x.2
    · rw [if_pos h, List.pairwise_cons]
      refine ⟨?_, hp⟩
      intro z hz
      rcases List.mem_cons.mp hz with rfl | hz2
      · rcases Nat.lt_or_ge z.2 x.2 with hlt | hge
        · exact Or.inl hlt
        · exact Or.inr ⟨Nat.le_antisymm hge h, hpos z (List.mem_cons_self _ _)⟩
      · have hyz := (List.pairwise_cons.mp hp).1 z hz2
        have hzy : z.2 ≤ y.2 := hyz.elim Nat.le_of_lt (fun p => Nat.le_of_eq p.1.symm)
        have hzx : z.2 ≤ x.2 := Nat.le_trans hzy h
        rcases Nat.lt_or_ge z.2 x.2 with hlt | hge
        · exact Or.inl hlt
        · exact Or.inr ⟨Nat.le_antisymm hge hzx, hpos z (List.mem_cons_of_mem _ hz2)⟩
    · rw [if_neg h, List.pairwise_cons]
      constructor
      · intro z hz
        rcases List.mem_cons.mp ((insertDescBySnd_perm x ys).subset hz) with rfl | hz2
        · exact Or.inl (Nat.lt_of_not_le h)
        · exact (List.pairwise_cons.mp hp).1 z hz2
      · exact insertDescBySnd_pairwise pos x ys (List.pairwise_cons.mp hp).2
          (fun z hz => hpos z (List.mem_cons_of_mem _ hz))

/-- Sorting a list whose original positions are strictly increasing produces a
list ordered by "higher score first, equal scores in original order". -/
theorem pySortDescBySnd_pairwise (pos : String × Nat → Nat) :
    ∀ l : List (String × Nat),
      l.Pairwise (fun a b => pos a < pos b) →
      (pySortDescBySnd l).Pairwise (fun a b => b.2 < a.2 ∨ (a.2 = b.2 ∧ pos a < pos b))
  | [], _ => List.Pairwise.nil
  | x :: xs, h => by
    rw [pySortDescBySnd]
    obtain ⟨hx, hxs⟩ := List.pairwise_cons.mp h
    exact insertDescBySnd_pairwise pos x (pySortDescBySnd xs)
      (pySortDescBySnd_pairwise pos xs hxs)
      (fun y hy => hx y ((pySortDescBySnd_perm xs).subset hy))

/-- A duplicate-free list is ordered by its own `indexOf` positions. -/
theorem nodup_pairwise_indexOf (l : List String) (h : l.Nodup) :
    l.Pairwise (fun a b => l.indexOf a < l.indexOf b) := by
  rw [List.pairwise_iff_getElem]
  intro i j hi hj hij
  rw [List.indexOf_getElem h i hi, List.indexOf_getElem h j hj]
  exact hij

/-- C7: for every graph with duplicate-free node list and every `top_n`, the
degree-method importance ranking returns at most `top_n` node ids, all nodes
of the graph, sorted descending by node degree with ties broken by first-seen
(node insertion) order — hence deterministically. -/
theorem degree_rank_sorted (bw pr : GraphL → Option (List (String × Nat)))
    (G : GraphL) (top_n : Nat) (hnd : G.nodes.Nodup) :
    (find_important_nodes bw pr G "degree" top_n).length ≤ top_n ∧
    (∀ x ∈ find_important_nodes bw pr G "degree" top_n, x ∈ G.nodes) ∧
    (find_important_nodes bw pr G "degree" top_n).Pairwise (fun a b =>
      nxDegree G b < nxDegree G a ∨
        (nxDegree G a = nxDegree G b ∧ G.nodes.indexOf a < G.nodes.indexOf b)) := by
  have hunfold : find_important_nodes bw pr G "degree" top_n =
      ((pySortDescBySnd (degreeImportance G)).take top_n).map Prod.fst := by
    simp [find_important_nodes]
  have hmem : ∀ p ∈ (pySortDescBySnd (degreeImportance G)).take top_n,
      p ∈ degreeImportance G := fun p hp =>
    (pySortDescBySnd_perm _).subset ((List.take_sublist _ _).subset hp)
  have hsnd : ∀ p ∈ degreeImportance G, p.2 = nxDegree G p.1 ∧ p.1 ∈ G.nodes := by
    intro p hp
    obtain ⟨n, hn, rfl⟩ := List.mem_map.mp hp
    exact ⟨rfl, hn⟩
  refine ⟨?_, ?_, ?_⟩
  · rw [hunfold, List.length_map]
    exact List.length_take_le _ _
  · intro x hx
    rw [hunfold] at hx
    obtain ⟨p, hp, rfl⟩ := List.mem_map.mp hx
    exact (hsnd p (hmem p hp)).2
  · rw [hunfold, List.pairwise_map]
    have hidx : (degreeImportance G).Pairwise
        (fun a b => G.nodes.indexOf a.1 < G.nodes.indexOf b.1) := by
      rw [degreeImportance, List.pairwise_map]
      exact nodup_pairwise_indexOf G.nodes hnd
    have hsorted := pySortDescBySnd_pairwise (fun p => G.nodes.indexOf p.1)
      (degreeImportance G) hidx
    have htake := hsorted.sublist (List.take_sublist top_n _)
    refine htake.imp_of_mem ?_
    intro a b ha hb hab
    obtain ⟨ha2, _⟩ := hsnd a (hmem a ha)
    obtain ⟨hb2, _⟩ := hsnd b (hmem b hb)
    rw [← ha2, ← hb2]
    exact hab

/-- Witness for C7 on the path graph A—B—C—D with `top_n = 2`. -/
theorem degree_rank_sorted_witness :
    (find_important_nodes (fun _ => none) (fun _ => none)
        ⟨["A", "B", "C", "D"], [("A", "B"), ("B", "C"), ("C", "D")]⟩ "degree" 2).length ≤ 2 ∧
    (∀ x ∈ find_important_nodes (fun _ => none) (fun _ => none)
        ⟨["A", "B", "C", "D"], [("A", "B"), ("B", "C"), ("C", "D")]⟩ "degree" 2,
      x ∈ (⟨["A", "B", "C", "D"], [("A", "B"), ("B", "C"), ("C", "D")]⟩ : GraphL).nodes) ∧
    (find_important_nodes (fun _ => none) (fun _ => none)
        ⟨["A", "B", "C", "D"], [("A", "B"), ("B", "C"), ("C", "D")]⟩ "degree" 2).Pairwise
      (fun a b =>
        nxDegree ⟨["A", "B", "C", "D"], [("A", "B"), ("B", "C"), ("C", "D")]⟩ b <
            nxDegree ⟨["A", "B", "C", "D"], [("A", "B"), ("B", "C"), ("C", "D")]⟩ a ∨
          (nxDegree ⟨["A", "B", "C", "D"], [("A", "B"), ("B", "C"), ("C", "D")]⟩ a =
              nxDegree ⟨["A", "B", "C", "D"], [("A", "B"), ("B", "C"), ("C", "D")]⟩ b ∧
            (⟨["A", "B", "C", "D"], [("A", "B"), ("B", "C"), ("C", "D")]⟩ : GraphL).nodes.indexOf a <
              (⟨["A", "B", "C", "D"], [("A", "B"), ("B", "C"), ("C", "D")]⟩ : GraphL).nodes.indexOf b)) :=
  degree_rank_sorted (fun _ => none) (fun _ => none)
    ⟨["A", "B", "C", "D"], [("A", "B"), ("B", "C"), ("C", "D")]⟩ 2 (by decide)

end GraphLearn
namespace GraphLearn

/-! ### C4: label-search matching semantics -/

/-- A lone `%` pattern matches every subject. -/
theorem likeGo_pct_all : ∀ s : List Char, likeGo s [pctChar] = true
  | [] => by rw [likeGo]; simp [matchEmpty]
  | c :: s2 => by
    rw [likeGo, likeHere, if_pos rfl, likeHere]
    simp [likeGo_pct_all s2]

/-- A leading `%` matches exactly when the rest of the pattern matches some
suffix of the subject. -/
theorem likeGo_pct_iff : ∀ (s p : List Char),
    likeGo s (pctChar :: p) = true ↔ ∃ n, likeGo (s.drop n) p = true
  | [], p => by
    rw [likeGo, show matchEmpty (pctChar :: p) = matchEmpty p by rw [matchEmpty]; simp]
    constructor
    · intro h
      exact ⟨0, h⟩
    · rintro ⟨n, hn⟩
      rw [List.drop_nil] at hn
      exact hn
  | c :: s2, p => by
    rw [likeGo, likeHere, if_pos rfl, Bool.or_eq_true]
    constructor
    · rintro (h | h)
      · exact ⟨0, h⟩
      · obtain ⟨n, hn⟩ := (likeGo_pct_iff s2 p).mp h
        exact ⟨n + 1, by simpa using hn⟩
    · rintro ⟨n, hn⟩
      match n with
      | 0 => exact Or.inl hn
      | n + 1 => exact Or.inr ((likeGo_pct_iff s2 p).mpr ⟨n, by simpa using hn⟩)

/-- A wildcard-free pattern followed by `%` matches exactly the subjects that
start with the pattern up to ASCII case folding. -/
theorem likeGo_prefix_iff : ∀ (q s : List Char),
    (∀ c ∈ q, c ≠ pctChar ∧ c ≠ uscChar) →
    (likeGo s (q ++ [pctChar]) = true ↔
      q.length ≤ s.length ∧ (s.take q.length).map lowerA = q.map lowerA)
  | [], s, _ => by
    constructor
    · intro _
      exact ⟨Nat.zero_le _, by simp⟩
    · intro _
      exact likeGo_pct_all s
  | a :: q2, s, hw => by
    have ha := hw a (List.mem_cons_self _ _)
    match s with
    | [] =>
      rw [List.cons_append, likeGo, matchEmpty, if_neg ha.1]
      constructor
      · intro h
        exact absurd h (by simp)
      · rintro ⟨hlen, _⟩
        simp at hlen
    | c :: s2 =>
      rw [List.cons_append, likeGo, likeHere, if_neg ha.1, if_neg ha.2,
        Bool.and_eq_true, beq_iff_eq]
      have ih := likeGo_prefix_iff q2 s2 (fun d hd => hw d (List.mem_cons_of_mem _ hd))
      constructor
      · rintro ⟨h1, h2⟩
        obtain ⟨h3, h4⟩ := ih.mp h2
        refine ⟨by simpa using Nat.succ_le_succ h3, ?_⟩
        simp only [List.length_cons, List.take_succ_cons, List.map_cons]
        rw [h4, h1]
      · rintro ⟨h1, h2⟩
        simp only [List.length_cons, List.take_succ_cons, List.map_cons] at h2
        obtain ⟨h3, h4⟩ := List.cons.inj h2
        exact ⟨h3.symm, ih.mpr ⟨by simpa using h1, h4⟩⟩

/-- Case-sensitive prefix test characterization. -/
theorem prefixEq_iff : ∀ (p s : List Char),
    prefixEq p s = true ↔ p.length ≤ s.length ∧ s.take p.length = p
  | [], s => by simp [prefixEq]
  | c :: p2, [] => by simp [prefixEq]
  | c :: p2, d :: s2 => by
    rw [prefixEq, Bool.and_eq_true, beq_iff_eq, prefixEq_iff p2 s2]
    constructor
    · rintro ⟨h1, h2, h3⟩
      refine ⟨by simpa using Nat.succ_le_succ h2, ?_⟩
      simp [List.take_succ_cons, h3, h1]
    · rintro ⟨h1, h2⟩
      rw [List.length_cons, List.take_succ_cons] at h2
      obtain ⟨h3, h4⟩ := List.cons.inj h2
      exact ⟨h3.symm, by simpa using h1, h4⟩

/-- Substring occurrence as existence of a matching suffix. -/
theorem subOccurs_iff : ∀ (s q : List Char),
    subOccurs q s = true ↔ ∃ n, prefixEq q (s.drop n) = true
  | [], q => by
    rw [subOccurs]
    constructor
    · intro h
      exact ⟨0, h⟩
    · rintro ⟨n, hn⟩
      rw [List.drop_nil] at hn
      exact hn
  | c :: s2, q => by
    rw [subOccurs, Bool.or_eq_true]
    constructor
    · rintro (h | h)
      · exact ⟨0, h⟩
      · obtain ⟨n, hn⟩ := (subOccurs_iff s2 q).mp h
        exact ⟨n + 1, by simpa using hn⟩
    · rintro ⟨n, hn⟩
      match n with
      | 0 => exact Or.inl hn
      | n + 1 => exact Or.inr ((subOccurs_iff s2 q).mpr ⟨n, by simpa using hn⟩)

/-- The search-route eligibility test coincides with ASCII-case-insensitive
substring containment for wildcard-free queries. -/
theorem searchEligible_iff (q l : String)
    (hw : ∀ c ∈ q.data, c ≠ pctChar ∧ c ≠ uscChar) :
    searchEligible q l = subOccurs (q.data.map lowerA) (l.data.map lowerA) := by
  rw [Bool.eq_iff_iff, searchEligible, likeMatch, likeGo_pct_iff, subOccurs_iff]
  constructor
  · rintro ⟨n, hn⟩
    obtain ⟨h1, h2⟩ := (likeGo_prefix_iff q.data (l.data.drop n) hw).mp hn
    refine ⟨n, (prefixEq_iff _ _).mpr ⟨by simpa using h1, ?_⟩⟩
    rw [List.length_map, ← List.map_drop, ← List.map_take]
    exact h2
  · rintro ⟨n, hn⟩
    obtain ⟨h1, h2⟩ := (prefixEq_iff _ _).mp hn
    refine ⟨n, (likeGo_prefix_iff q.data (l.data.drop n) hw).mpr ⟨by simpa using h1, ?_⟩⟩
    rw [← List.map_drop, ← List.map_take, List.length_map] at h2
    exact h2

/-- C4 counterexample: the stored label `Apple` is eligible for the query
`ap` — SQLite's default `LIKE` is ASCII case-insensitive — although `ap` does
not occur in `Apple` as a case-sensitive substring; so eligibility is not
case-sensitive substring containment. -/
theorem search_case_insensitive_cx :
    searchEligible "ap" "Apple" = true ∧ subOccurs "ap".data "Apple".data = false := by
  decide

/-- C4 amended: for every stored label and every wildcard-free query of length
at least 2, the row is eligible for the search result exactly when the query
occurs in the label as an ASCII-case-insensitive substring. -/
theorem search_substring_amended (q label : String)
    (_hlen : 2 ≤ q.length)
    (hw : ∀ c ∈ q.data, c ≠ pctChar ∧ c ≠ uscChar) :
    searchEligible q label = subOccurs (q.data.map lowerA) (label.data.map lowerA) :=
  searchEligible_iff q label hw

/-- Witness for C4's amended theorem: the query `ab` against the label `xABy`
(eligible, and an ASCII-case-insensitive substring). -/
theorem search_substring_amended_witness :
    searchEligible "ab" "xABy" = subOccurs ("ab".data.map lowerA) ("xABy".data.map lowerA) ∧
    searchEligible "ab" "xABy" = true :=
  ⟨search_substring_amended "ab" "xABy" (by decide) (by decide), by decide⟩

end GraphLearn
namespace GraphLearn

/-! ### C8: label-search result order -/

/-- C8 counterexample: on the store holding the equal-degree rows
`("b", "xx", 1)` and `("a", "xx", 1)`, the list `[b-row, a-row]` is an
admissible result of the search route for the query `"xx"` (the SQL orders by
degree descending only), yet it is not ordered with ties broken by id
ascending — so the route does not guarantee the claimed tie order. -/
theorem search_order_tie_cx :
    search_nodes [("b", "xx", 1), ("a", "xx", 1)] "xx" [("b", "xx", 1), ("a", "xx", 1)] ∧
    ¬ ([("b", "xx", 1), ("a", "xx", 1)] : List NodeRow).Pairwise (fun a b =>
        b.2.2 < a.2.2 ∨ (a.2.2 = b.2.2 ∧ strLt a.1.data b.1.data = true)) := by
  constructor
  · rw [search_nodes, if_neg (by decide)]
    refine ⟨[("b", "xx", 1), ("a", "xx", 1)], ?_, by decide, by decide⟩
    rw [show searchMatches [("b", "xx", 1), ("a", "xx", 1)] "xx" =
      [("b", "xx", 1), ("a", "xx", 1)] from by decide]
  · decide

/-- C8 amended: for every store, every query of length at least 2 and every
admissible result of the search route, the result holds at most 10 rows, each
a stored row matching the query, ordered by degree descending; and whenever at
most 10 rows match, the result is a permutation of all matching rows.  The SQL
carries no secondary sort key, so no particular order among rows of equal
degree (in particular not id-ascending) is guaranteed. -/
theorem search_order_amended (store : List NodeRow) (q : String) (out : List NodeRow)
    (hq : 2 ≤ q.length) (h : search_nodes store q out) :
    out.length ≤ 10 ∧
    (∀ r ∈ out, r ∈ store ∧ matchQ q r = true) ∧
    out.Pairwise (fun a b => b.2.2 ≤ a.2.2) ∧
    ((searchMatches store q).length ≤ 10 → out.Perm (searchMatches store q)) := by
  rw [search_nodes, if_neg (by omega)] at h
  obtain ⟨full, hperm, hsort, rfl⟩ := h
  refine ⟨List.length_take_le _ _, ?_, hsort.sublist (List.take_sublist _ _), ?_⟩
  · intro r hr
    have hr2 : r ∈ full := (List.take_sublist _ _).subset hr
    exact List.mem_filter.mp (hperm.subset hr2)
  · intro hlen
    have hfl : full.length ≤ 10 := hperm.length_eq ▸ hlen
    rw [List.take_of_length_le hfl]
    exact hperm

/-- Witness for C8's amended theorem on a one-row store. -/
theorem search_order_amended_witness :
    ([("a", "xx", 3)] : List NodeRow).length ≤ 10 ∧
    (∀ r ∈ ([("a", "xx", 3)] : List NodeRow),
      r ∈ ([("a", "xx", 3)] : List NodeRow) ∧ matchQ "xx" r = true) ∧
    ([("a", "xx", 3)] : List NodeRow).Pairwise (fun a b => b.2.2 ≤ a.2.2) ∧
    ((searchMatches [("a", "xx", 3)] "xx").length ≤ 10 →
      ([("a", "xx", 3)] : List NodeRow).Perm (searchMatches [("a", "xx", 3)] "xx")) :=
  search_order_amended [("a", "xx", 3)] "xx" [("a", "xx", 3)] (by decide)
    (by
      rw [search_nodes, if_neg (by decide)]
      refine ⟨[("a", "xx", 3)], ?_, by decide, by decide⟩
      rw [show searchMatches [("a", "xx", 3)] "xx" = [("a", "xx", 3)] from by decide])

end GraphLearn
